import Mathlib

/-!
# User store (`main.go`): a shallow embedding and its verified properties

The program keeps a list of users as one JSON array in a flat file and offers four
operations on it (`add`, `list`, `findById`, `remove`), preceded by a validation of the
command-line flags.

Modelling decisions.

* Go `string` and `[]byte` values are modelled by `String` (texts of valid Unicode);
  the conversions `[]byte(s)` are the identity.
* The `encoding/json` package is a collaborator of the program, not part of it. The
  handlers take it as a parameter `J : Json`; the general theorems hold for every
  codec that satisfies the round-trip laws `Json.Lawful`. `goJson` is a concrete codec
  (the output format of `json.Marshal` for `User` and `UserList`, and a decoder of that
  format) that satisfies the laws.
* A `File` is the content of the backing file as a freshly opened handle sees it (read
  offset zero, as `Perform` opens it), together with the failure, if any, that the
  device answers to a read and to a write.
* A Go result pair `([]byte, error)` is an `Except Error String`; the `nil` slice is the
  empty text.
* The theorems on the handlers state that the device answers the read, and where a
  write happens the write, without a failure; the handlers themselves keep the error
  paths of the source.
-/

namespace UserStore

/-! ## Constants -/

def FLAG_ID : String := "id"
def FLAG_OPERATION : String := "operation"
def FLAG_ITEM : String := "item"
def FLAG_FILENAME : String := "fileName"

def OPERATION_ADD : String := "add"
def OPERATION_LIST : String := "list"
def OPERATION_FIND : String := "findById"
def OPERATION_RM : String := "remove"

def FILE_EXT : String := "json"

/-! ## Errors -/

/-- The error values of the program. The six validation errors are the package-level
`errors.New` values and the value built by `fmt.Errorf` from `errorBadOperationType`;
`json` and `io` stand for the errors of `encoding/json` and of the file system. -/
inductive Error where
  | errorBadOperationType (operation : String)
  | errorEmptyId
  | errorEmptyOperation
  | errorEmptyItem
  | errorEmptyFileName
  | errorInvalidFileExtension
  | json (msg : String)
  | io (msg : String)
  deriving DecidableEq, Repr

/-- The text of an error (`err.Error()`). -/
def Error.message : Error → String
  | .errorBadOperationType operation => "Operation " ++ operation ++ " not allowed!"
  | .errorEmptyId => "-id flag has to be specified"
  | .errorEmptyOperation => "-operation flag has to be specified"
  | .errorEmptyItem => "-item flag has to be specified"
  | .errorEmptyFileName => "-fileName flag has to be specified"
  | .errorInvalidFileExtension => "bad file extension. Use -h to see aloowed extensions"
  | .json msg => msg
  | .io msg => msg

/-! ## Data model -/

/-- The flags read from the command line: a Go `map[string]string`. -/
abbrev Arguments := List (String × String)

/-- The index expression `args[key]`: the zero value `""` when the key is absent. -/
def Arguments.get (args : Arguments) (key : String) : String :=
  (args.lookup key).getD ""

/-- One user entry. `Age` is a Go `int`; the program never computes with it. -/
structure User where
  Id : String
  Email : String
  Age : Int
  deriving DecidableEq, Repr

/-- The zero value `User{}`. -/
instance : Inhabited User := ⟨⟨"", "", 0⟩⟩

abbrev UserList := List User

/-! ## Collaborators: the JSON codec and the file -/

/-- The four uses the program makes of `encoding/json`:
`json.Unmarshal(_, &User)`, `json.Unmarshal(_, &UserList)`, `json.Marshal(&UserList)`
and `json.Marshal(&User)`. -/
structure Json where
  unmarshalUser : String → Except Error User
  unmarshalList : String → Except Error UserList
  marshalList : UserList → Except Error String
  marshalUser : User → Except Error String

/-- The laws of the codec the theorems rely on: encoding never fails, the encoding of a
list is never the empty buffer, and decoding an encoding gives the value back. -/
structure Json.Lawful (J : Json) : Prop where
  marshalList_ok : ∀ l : UserList, ∃ b : String,
    J.marshalList l = .ok b ∧ b ≠ "" ∧ J.unmarshalList b = .ok l
  marshalUser_ok : ∀ u : User, ∃ b : String,
    J.marshalUser u = .ok b ∧ J.unmarshalUser b = .ok u

/-- The backing file as a freshly opened handle sees it. `readErr` and `writeErr` are
the failures the device answers to `io.ReadAll` and `ioutil.WriteFile` (`none`: the
call succeeds); `afterFailedWrite` is what the file holds after a failed write. -/
structure File where
  contents : String
  readErr : Option Error := none
  writeErr : Option Error := none
  afterFailedWrite : String := ""
  deriving DecidableEq, Repr

/-- The call `io.ReadAll(file)`. -/
def ReadAll (file : File) : Except Error String :=
  match file.readErr with
  | some err => .error err
  | none => .ok file.contents

/-- The call `ioutil.WriteFile(file.Name(), data, FILE_PERMISSIONS)`: the error, if any,
and the file afterwards. A successful write replaces the whole content. -/
def WriteFile (file : File) (data : String) : Option Error × File :=
  match file.writeErr with
  | some err => (some err, { file with contents := file.afterFailedWrite })
  | none => (none, { file with contents := data })

/-- What a handler gives back: its result pair and the file afterwards. -/
structure Result where
  out : Except Error String
  file : File

/-! ## Validation of the flags -/

/-- The call `strings.Split(s, ".")` on the characters of `s`: the pieces between the
dots; a text without a dot is its own single piece. -/
def splitDot : List Char → List (List Char)
  | [] => [[]]
  | c :: cs =>
    if c = '.' then [] :: splitDot cs
    else
      match splitDot cs with
      | [] => [[c]]
      | piece :: pieces => (c :: piece) :: pieces

/-- The function `checkFilename`; `none` is the `nil` error. -/
def checkFilename (filename : String) : Option Error :=
  if filename = "" then some .errorEmptyFileName
  else
    let extension := splitDot filename.data
    if extension.getD (extension.length - 1) [] ≠ FILE_EXT.data then
      some .errorInvalidFileExtension
    else none

/-- The function `checkFlags`; `none` is the `nil` error. -/
def checkFlags (args : Arguments) : Option Error :=
  let id := args.get FLAG_ID
  let item := args.get FLAG_ITEM
  let operation := args.get FLAG_OPERATION
  let filename := args.get FLAG_FILENAME
  if operation = "" then some .errorEmptyOperation
  else if operation ≠ OPERATION_ADD ∧ operation ≠ OPERATION_FIND ∧
      operation ≠ OPERATION_LIST ∧ operation ≠ OPERATION_RM then
    some (.errorBadOperationType operation)
  else if operation = OPERATION_ADD ∧ (item = "" ∨ item = "\x7b\x7d") then some .errorEmptyItem
  else if (operation = OPERATION_FIND ∨ operation = OPERATION_RM) ∧ id = "" then
    some .errorEmptyId
  else
    match checkFilename filename with
    | some err => some err
    | none => none

/-! ## The handlers -/

/-- The scan `for i := 0; i < len(list); i++ { if list[i].Id == id { ... return } }`,
run on the part of the list from index `i` on: the index at which the body is entered,
or `none` when the loop runs to its end. -/
def scan (id : String) : UserList → Nat → Option Nat
  | [], _ => none
  | u :: rest, i => if u.Id = id then some i else scan id rest (i + 1)

/-- The end of `addUser`: append, encode, overwrite the file. -/
def addUser.store (J : Json) (file : File) (nUserList : UserList) (nUser : User) : Result :=
  let nUserList := nUserList ++ [nUser]
  match J.marshalList nUserList with
  | .error err => ⟨.error err, file⟩
  | .ok buffer =>
    match WriteFile file buffer with
    | (some err, file) => ⟨.error err, file⟩
    | (none, file) => ⟨.ok "", file⟩

/-- The function `addUser`. -/
def addUser (J : Json) (item : String) (file : File) : Result :=
  match ReadAll file with
  | .error err => ⟨.error err, file⟩
  | .ok buffer =>
    match J.unmarshalUser item with
    | .error err => ⟨.error err, file⟩
    | .ok nUser =>
      if buffer.length > 0 then
        match J.unmarshalList buffer with
        | .error err => ⟨.error err, file⟩
        | .ok nUserList =>
          match scan nUser.Id nUserList 0 with
          | some _ => ⟨.ok ("Item with id " ++ nUser.Id ++ " already exists"), file⟩
          | none => addUser.store J file nUserList nUser
      else addUser.store J file [] nUser

/-- The function `findUserById`. -/
def findUserById (J : Json) (id : String) (file : File) : Result :=
  match ReadAll file with
  | .error err => ⟨.error err, file⟩
  | .ok buffer =>
    match J.unmarshalList buffer with
    | .error err => ⟨.error err, file⟩
    | .ok vList =>
      match scan id vList 0 with
      | some i =>
        match J.marshalUser (vList.getD i default) with
        | .error err => ⟨.error err, file⟩
        | .ok result => ⟨.ok result, file⟩
      | none => ⟨.ok "", file⟩

/-- The three statements that delete element `i` of `removeUserById`:
`usList[i] = usList[len(usList)-1]`, `usList[len(usList)-1] = User{}`,
`usList = usList[:len(usList)-1]`. -/
def removeUserById.delete (usList : UserList) (i : Nat) : UserList :=
  let usList1 := usList.set i (usList.getD (usList.length - 1) default)
  let usList2 := usList1.set (usList1.length - 1) default
  usList2.take (usList2.length - 1)

/-- The function `removeUserById`. -/
def removeUserById (J : Json) (id : String) (file : File) : Result :=
  match ReadAll file with
  | .error err => ⟨.error err, file⟩
  | .ok buffer =>
    let notFound : Result := ⟨.ok ("Item with id " ++ id ++ " not found"), file⟩
    if buffer.length > 0 then
      match J.unmarshalList buffer with
      | .error err => ⟨.error err, file⟩
      | .ok usList =>
        match scan id usList 0 with
        | some i =>
          match J.marshalList (removeUserById.delete usList i) with
          | .error err => ⟨.error err, file⟩
          | .ok data =>
            match WriteFile file data with
            | (some err, file) => ⟨.error err, file⟩
            | (none, file) => ⟨.ok "", file⟩
        | none => notFound
    else notFound

/-- The function `listUsers`. -/
def listUsers (file : File) : Result :=
  match ReadAll file with
  | .error err => ⟨.error err, file⟩
  | .ok buff => ⟨.ok buff, file⟩

/-! ## A concrete codec: the format of `encoding/json` for `User` and `UserList` -/

instance {ε α : Type} [DecidableEq ε] [DecidableEq α] : DecidableEq (Except ε α)
  | .ok a, .ok b => if h : a = b then isTrue (by rw [h]) else isFalse (by simpa using h)
  | .error a, .error b => if h : a = b then isTrue (by rw [h]) else isFalse (by simpa using h)
  | .ok _, .error _ => isFalse (by simp)
  | .error _, .ok _ => isFalse (by simp)

/-- The digit of `hex` (`"0123456789abcdef"`) at index `n`. -/
def hexDigit (n : Nat) : Char :=
  if n < 10 then Char.ofNat (48 + n) else Char.ofNat (87 + n)

/-- The value of a hexadecimal digit, in either case. -/
def hexVal (c : Char) : Option Nat :=
  if 48 ≤ c.toNat ∧ c.toNat ≤ 57 then some (c.toNat - 48)
  else if 97 ≤ c.toNat ∧ c.toNat ≤ 102 then some (c.toNat - 87)
  else if 65 ≤ c.toNat ∧ c.toNat ≤ 70 then some (c.toNat - 55)
  else none

/-- How `json.Marshal` writes one character of a string (HTML escaping on): a
two-character escape for the backslash, the quote and five control characters, `\u00XX`
for the other control characters and for `&`, `<`, `>`, `\u2028` and `\u2029` for the two
line separators, any other character as it is. -/
def escapeChar (c : Char) : List Char :=
  if c = '\\' ∨ c = '"' then ['\\', c]
  else if c = '\x08' then ['\\', 'b']
  else if c = '\x0c' then ['\\', 'f']
  else if c = '\n' then ['\\', 'n']
  else if c = '\r' then ['\\', 'r']
  else if c = '\t' then ['\\', 't']
  else if c.toNat < 32 ∨ c = '&' ∨ c = '<' ∨ c = '>' then
    ['\\', 'u', '0', '0', hexDigit (c.toNat / 16), hexDigit (c.toNat % 16)]
  else if c = '\u2028' ∨ c = '\u2029' then
    ['\\', 'u', '2', '0', '2', hexDigit (c.toNat % 16)]
  else [c]

/-- The characters of a string between its quotes. -/
def escape : List Char → List Char
  | [] => []
  | c :: cs => escapeChar c ++ escape cs

/-- A JSON string literal. -/
def encodeString (s : String) : List Char :=
  '"' :: (escape s.data ++ ['"'])

/-- The decimal digits of `n`, in front of `acc`; `fuel` bounds the number of digits. -/
def putNat : Nat → Nat → List Char → List Char
  | 0, _, acc => acc
  | fuel + 1, n, acc =>
    if n < 10 then Char.ofNat (48 + n) :: acc
    else putNat fuel (n / 10) (Char.ofNat (48 + n % 10) :: acc)

/-- A JSON integer. -/
def encodeInt : Int → List Char
  | .ofNat n => putNat (n + 1) n []
  | .negSucc n => '-' :: putNat (n + 2) (n + 1) []

/-- The output of `json.Marshal` for a `User`. -/
def encodeUser (u : User) : List Char :=
  "\x7b\"id\":".data ++ encodeString u.Id ++ ",\"email\":".data ++ encodeString u.Email ++
    ",\"age\":".data ++ encodeInt u.Age ++ ['}']

/-- The elements of an array after the first one, and the closing bracket. -/
def encodeTail : UserList → List Char
  | [] => [']']
  | u :: rest => ',' :: (encodeUser u ++ encodeTail rest)

/-- The output of `json.Marshal` for a `UserList` that is not `nil`. -/
def encodeList : UserList → List Char
  | [] => ['[', ']']
  | u :: rest => '[' :: (encodeUser u ++ encodeTail rest)

/-- Four hexadecimal digits and what follows them. -/
def readHex4 : List Char → Option (Nat × List Char)
  | a :: b :: c :: d :: rest =>
    match hexVal a, hexVal b, hexVal c, hexVal d with
    | some a, some b, some c, some d => some (((a * 16 + b) * 16 + c) * 16 + d, rest)
    | _, _, _, _ => none
  | _ => none

/-- The escape `\uXXXX`, read after the `u`: a character of the basic plane, or a
surrogate pair `\uXXXX\uXXXX`, or U+FFFD for a surrogate without its partner. -/
def readUnicode (s : List Char) : Option (Char × List Char) :=
  match readHex4 s with
  | none => none
  | some (n, rest) =>
    if 0xD800 ≤ n ∧ n < 0xE000 then
      match rest with
      | b :: u :: rest1 =>
        if b = '\\' ∧ u = 'u' ∧ n < 0xDC00 then
          match readHex4 rest1 with
          | some (m, rest2) =>
            if 0xDC00 ≤ m ∧ m < 0xE000 then
              some (Char.ofNat (0x10000 + (n - 0xD800) * 0x400 + (m - 0xDC00)), rest2)
            else some ('\uFFFD', rest)
          | none => some ('\uFFFD', rest)
        else some ('\uFFFD', rest)
      | _ => some ('\uFFFD', rest)
    else some (Char.ofNat n, rest)

/-- An escape, read after the backslash. -/
def readEscape : List Char → Option (Char × List Char)
  | [] => none
  | e :: rest =>
    if e = '"' ∨ e = '\\' ∨ e = '/' then some (e, rest)
    else if e = 'b' then some ('\x08', rest)
    else if e = 'f' then some ('\x0c', rest)
    else if e = 'n' then some ('\n', rest)
    else if e = 'r' then some ('\r', rest)
    else if e = 't' then some ('\t', rest)
    else if e = 'u' then readUnicode rest
    else none

/-- A string, read after its opening quote: its characters and what follows the
closing quote. A raw control character ends the reading with a failure. -/
def readString : Nat → List Char → Option (List Char × List Char)
  | 0, _ => none
  | _ + 1, [] => none
  | fuel + 1, c :: cs =>
    if c = '"' then some ([], cs)
    else if c = '\\' then
      match readEscape cs with
      | some (ch, rest) =>
        match readString fuel rest with
        | some (s, rest1) => some (ch :: s, rest1)
        | none => none
      | none => none
    else if c.toNat < 32 then none
    else
      match readString fuel cs with
      | some (s, rest) => some (c :: s, rest)
      | none => none

/-- The leading decimal digits of a text, and what follows them. -/
def takeDigits : List Char → List Char × List Char
  | [] => ([], [])
  | c :: cs =>
    if 48 ≤ c.toNat ∧ c.toNat ≤ 57 then (c :: (takeDigits cs).1, (takeDigits cs).2)
    else ([], c :: cs)

/-- The number a list of decimal digits writes, continuing from `acc`. -/
def digitsValue (acc : Nat) : List Char → Nat
  | [] => acc
  | c :: cs => digitsValue (acc * 10 + (c.toNat - 48)) cs

/-- A natural number without a leading zero. -/
def readNat (s : List Char) : Option (Nat × List Char) :=
  match takeDigits s with
  | ([], _) => none
  | ([d], rest) => some (digitsValue 0 [d], rest)
  | (d :: ds, rest) => if d = '0' then none else some (digitsValue 0 (d :: ds), rest)

/-- An integer: an optional minus sign, then a natural number. -/
def readInt : List Char → Option (Int × List Char)
  | [] => none
  | c :: cs =>
    if c = '-' then
      match readNat cs with
      | some (n, rest) => some (-(n : Int), rest)
      | none => none
    else
      match readNat (c :: cs) with
      | some (n, rest) => some ((n : Int), rest)
      | none => none

/-- The text after the expected characters `p`, when the text starts with them. -/
def expect : List Char → List Char → Option (List Char)
  | [], s => some s
  | _ :: _, [] => none
  | p :: ps, c :: cs => if p = c then expect ps cs else none

/-- A string literal and what follows it. -/
def readQuoted : List Char → Option (List Char × List Char)
  | [] => none
  | c :: cs => if c = '"' then readString cs.length cs else none

/-- An object `{"id":"..","email":"..","age":N}` and what follows it. -/
def readUser (s : List Char) : Option (User × List Char) :=
  match expect "\x7b\"id\":".data s with
  | none => none
  | some s1 =>
    match readQuoted s1 with
    | none => none
    | some (id, s2) =>
      match expect ",\"email\":".data s2 with
      | none => none
      | some s3 =>
        match readQuoted s3 with
        | none => none
        | some (email, s4) =>
          match expect ",\"age\":".data s4 with
          | none => none
          | some s5 =>
            match readInt s5 with
            | none => none
            | some (age, s6) =>
              match expect ['}'] s6 with
              | none => none
              | some s7 => some (⟨String.mk id, String.mk email, age⟩, s7)

/-- The elements of an array after the first one, up to the closing bracket. -/
def readTail : Nat → List Char → Option (UserList × List Char)
  | 0, _ => none
  | _ + 1, [] => none
  | fuel + 1, c :: cs =>
    if c = ']' then some ([], cs)
    else if c = ',' then
      match readUser cs with
      | some (u, rest) =>
        match readTail fuel rest with
        | some (us, rest1) => some (u :: us, rest1)
        | none => none
      | none => none
    else none

/-- An array of objects and what follows it. -/
def readList : List Char → Option (UserList × List Char)
  | [] => none
  | [_] => none
  | a :: b :: rest =>
    if a = '[' ∧ b = ']' then some ([], rest)
    else if a = '[' then
      match readUser (b :: rest) with
      | some (u, rest1) =>
        match readTail rest1.length rest1 with
        | some (us, rest2) => some (u :: us, rest2)
        | none => none
      | none => none
    else none

/-- The decoder's answer for a whole buffer: the value when the buffer is one value
and nothing else. The empty buffer gets the message of `encoding/json`. -/
def decodeWhole {α : Type} (read : List Char → Option (α × List Char)) (s : String) :
    Except Error α :=
  if s = "" then .error (.json "unexpected end of JSON input")
  else
    match read s.data with
    | some (a, []) => .ok a
    | some (_, _ :: _) => .error (.json "invalid character after top-level value")
    | none => .error (.json "invalid JSON input")

/-- A codec in the format of `encoding/json`: `marshalUser` and `marshalList` give the
text `json.Marshal` gives for a `User` and for a `UserList` that holds a slice; the two
decoders accept the texts of that layout (no blanks between the tokens, the members
`id`, `email`, `age` in this order, any JSON escape inside the strings) and answer
every other buffer, the empty one among them, with an error. Numbers are not bounded
to the 64 bits of a Go `int`. -/
def goJson : Json where
  unmarshalUser := decodeWhole readUser
  unmarshalList := decodeWhole readList
  marshalList := fun l => .ok (String.mk (encodeList l))
  marshalUser := fun u => .ok (String.mk (encodeUser u))

/-! ## Vocabulary of the properties -/

/-- The buffer `buffer` holds the Collection `c` for the handlers that write (`addUser`,
`removeUserById`): the empty buffer counts as the empty Collection, any other buffer
holds what it decodes to. -/
def Stores (J : Json) (buffer : String) (c : UserList) : Prop :=
  (buffer = "" ∧ c = []) ∨ (buffer ≠ "" ∧ J.unmarshalList buffer = .ok c)

instance (J : Json) (buffer : String) (c : UserList) : Decidable (Stores J buffer c) := by
  unfold Stores
  infer_instance

/-- No two Records of the Collection share an identifier. -/
def UniqueIds (c : UserList) : Prop := (c.map User.Id).Nodup

instance (c : UserList) : Decidable (UniqueIds c) := by
  unfold UniqueIds
  infer_instance

/-- A call of one of the two writing handlers. -/
inductive Op where
  | add (item : String)
  | remove (id : String)

/-- The file after one call. -/
def Op.run (J : Json) (file : File) : Op → File
  | .add item => (addUser J item file).file
  | .remove id => (removeUserById J id file).file

/-- The file after a sequence of calls, each one on the file the previous one left. -/
def runOps (J : Json) (file : File) (ops : List Op) : File :=
  ops.foldl (Op.run J) file

/-- The final dot-delimited segment of a name: the characters after its last dot, the
whole name when it has no dot. -/
def finalSegment (s : List Char) : List Char :=
  (s.reverse.takeWhile (fun c => c ≠ '.')).reverse

/-- The last piece of a split, as `checkFilename` takes it. -/
def lastPiece (pieces : List (List Char)) : List Char :=
  pieces.getD (pieces.length - 1) []

/-- The six checks of the validator in the order of the specification, each with the
error it reports when it fails: operation present; operation one of the four; an item
other than the empty object for `add`; an identifier for `findById` and `remove`; file
name present; final dot-delimited segment of the file name equal to `json`. -/
def validatorChecks : List (Arguments → Option Error) :=
  [fun args => if args.get "operation" = "" then some .errorEmptyOperation else none,
   fun args =>
    if args.get "operation" ∉ ["add", "list", "findById", "remove"] then
      some (.errorBadOperationType (args.get "operation"))
    else none,
   fun args =>
    if args.get "operation" = "add" ∧ (args.get "item" = "" ∨ args.get "item" = "\x7b\x7d") then
      some .errorEmptyItem
    else none,
   fun args =>
    if (args.get "operation" = "findById" ∨ args.get "operation" = "remove") ∧
        args.get "id" = "" then
      some .errorEmptyId
    else none,
   fun args => if args.get "fileName" = "" then some .errorEmptyFileName else none,
   fun args =>
    if finalSegment (args.get "fileName").data ≠ "json".data then
      some .errorInvalidFileExtension
    else none]

/-- The error of the first check that fails, `none` when none fails. -/
def firstFailure (args : Arguments) : Option Error :=
  validatorChecks.findSome? (fun check => check args)

/-! ## Sample data -/

/-- The Record of the scenarios of the specification. -/
def alice : User := ⟨"1", "a@x.com", 30⟩

/-- A second Record. -/
def bob : User := ⟨"2", "b@x.com", 41⟩

/-- A Record that shares the identifier of `alice`. -/
def twin : User := ⟨"1", "c@x.com", 52⟩

/-- The `item` flag of the scenarios of the specification. -/
def aliceItem : String := "\x7b\"id\":\"1\",\"email\":\"a@x.com\",\"age\":30\x7d"

/-- An `item` flag for `bob`. -/
def bobItem : String := "\x7b\"id\":\"2\",\"email\":\"b@x.com\",\"age\":41\x7d"

/-- A file with the given content on a device that does not fail. -/
def fileOf (contents : String) : File := ⟨contents, none, none, ""⟩

/-- The file after the first scenario: the Collection that holds `alice` alone. -/
def aliceFile : File := fileOf "[\x7b\"id\":\"1\",\"email\":\"a@x.com\",\"age\":30\x7d]"

/-- A file that holds `bob` alone. -/
def bobFile : File := fileOf "[\x7b\"id\":\"2\",\"email\":\"b@x.com\",\"age\":41\x7d]"

/-- A third Record. -/
def carol : User := ⟨"3", "c@x.com", 52⟩

/-- A file that holds `alice`, `bob` and `carol`, in this order. -/
def trioFile : File :=
  fileOf ("[\x7b\"id\":\"1\",\"email\":\"a@x.com\",\"age\":30\x7d," ++
    "\x7b\"id\":\"2\",\"email\":\"b@x.com\",\"age\":41\x7d," ++
    "\x7b\"id\":\"3\",\"email\":\"c@x.com\",\"age\":52\x7d]")

/-- A file in which two Records share the identifier `1`. -/
def twinFile : File :=
  fileOf ("[\x7b\"id\":\"1\",\"email\":\"a@x.com\",\"age\":30\x7d," ++
    "\x7b\"id\":\"1\",\"email\":\"c@x.com\",\"age\":52\x7d]")

/-! ## Lemmas on the model -/

theorem length_pos_iff (s : String) : s.length > 0 ↔ s ≠ "" := by
  cases s with
  | mk data =>
    cases data with
    | nil => simp [String.length]
    | cons a t =>
      simp only [String.length, List.length_cons, gt_iff_lt, Nat.zero_lt_succ, ne_eq, true_iff]
      intro h
      have := congrArg String.data h
      simp at this

theorem scan_eq_none_iff (id : String) (l : UserList) (k : Nat) :
    scan id l k = none ↔ ∀ u ∈ l, u.Id ≠ id := by
  induction l generalizing k with
  | nil => simp [scan]
  | cons u rest ih =>
    by_cases h : u.Id = id
    · simp [scan, h]
    · simp [scan, h, ih]

/-- When the scan enters its body, it does so at the first index whose Record carries
the identifier. -/
theorem scan_eq_some_iff (id : String) (l : UserList) (k i : Nat) :
    scan id l k = some i ↔
      ∃ j, i = k + j ∧ (∃ u, l[j]? = some u ∧ u.Id = id) ∧
        ∀ j', j' < j → ∀ u, l[j']? = some u → u.Id ≠ id := by
  induction l generalizing k with
  | nil => simp [scan]
  | cons u rest ih =>
    by_cases h : u.Id = id
    · simp only [scan, h, if_true, Option.some.injEq]
      constructor
      · intro hk
        exact ⟨0, by omega, ⟨u, by simp, h⟩, by intro j' hj'; omega⟩
      · rintro ⟨j, hj, _, hmin⟩
        cases j with
        | zero => omega
        | succ j => exact absurd h (hmin 0 (by omega) u (by simp))
    · simp only [scan, h, if_false, ih]
      constructor
      · rintro ⟨j, hj, ⟨v, hv, hvid⟩, hmin⟩
        refine ⟨j + 1, by omega, ⟨v, by simpa using hv, hvid⟩, ?_⟩
        intro j' hj' w hw
        cases j' with
        | zero =>
          simp at hw
          subst hw
          exact h
        | succ j' => exact hmin j' (by omega) w (by simpa using hw)
      · rintro ⟨j, hj, ⟨v, hv, hvid⟩, hmin⟩
        cases j with
        | zero =>
          simp at hv
          subst hv
          exact absurd hvid h
        | succ j =>
          refine ⟨j, by omega, ⟨v, by simpa using hv, hvid⟩, ?_⟩
          intro j' hj' w hw
          exact hmin (j' + 1) (by omega) w (by simpa using hw)

/-- On a list with last element `x`, deleting index `i` puts `x` at index `i` of the
rest (and changes nothing when `i` is the last index). -/
theorem delete_concat (a : UserList) (x : User) (i : Nat) :
    removeUserById.delete (a ++ [x]) i = a.set i x := by
  have hx : (a ++ [x]).getD (a.length + 1 - 1) default = x := by
    simp [List.getD_eq_getElem?_getD]
  simp only [removeUserById.delete, List.length_set, List.length_append, List.length_singleton, hx]
  rw [List.set_take, List.set_take, Nat.add_sub_cancel, List.take_left]
  exact List.set_eq_of_length_le (by simp)

theorem set_perm_eraseIdx (a : UserList) (x : User) (i : Nat) (h : i < a.length) :
    (a.set i x).Perm (x :: a.eraseIdx i) := by
  induction a generalizing i with
  | nil => simp at h
  | cons y a ih =>
    cases i with
    | zero => simp
    | succ i =>
      simp only [List.set_cons_succ, List.eraseIdx_cons_succ]
      exact ((ih i (by simpa using h)).cons y).trans (List.Perm.swap x y _)

theorem delete_perm (l : UserList) (i : Nat) (h : i < l.length) :
    (removeUserById.delete l i).Perm (l.eraseIdx i) := by
  rcases List.eq_nil_or_concat l with rfl | ⟨a, x, rfl⟩
  · simp at h
  · rw [List.concat_eq_append] at h ⊢
    rw [delete_concat]
    by_cases hi : i < a.length
    · rw [List.eraseIdx_append_of_lt_length hi]
      exact (set_perm_eraseIdx a x i hi).trans (List.perm_append_singleton x _).symm
    · have : i = a.length := by simp at h; omega
      subst this
      rw [List.set_eq_of_length_le (le_refl _), List.eraseIdx_append_of_length_le (le_refl _)]
      simp

theorem delete_length (l : UserList) (i : Nat) :
    (removeUserById.delete l i).length = l.length - 1 := by
  simp [removeUserById.delete]

theorem delete_getElem? (l : UserList) (i j : Nat) (hi : i < l.length) (hj : j < l.length - 1) :
    (removeUserById.delete l i)[j]? = if j = i then l[l.length - 1]? else l[j]? := by
  rcases List.eq_nil_or_concat l with rfl | ⟨a, x, rfl⟩
  · simp at hi
  · rw [List.concat_eq_append] at hi hj ⊢
    rw [delete_concat]
    simp only [List.length_append, List.length_singleton, Nat.add_sub_cancel] at hi hj ⊢
    rw [List.getElem?_set, List.getElem?_concat_length, List.getElem?_append_left hj]
    by_cases hji : j = i
    · subst hji; simp [hj]
    · simp [hji, Ne.symm hji]

/-! ### The handlers on a readable, writable file -/

theorem addUser_store_eq (J : Json) (hJ : J.Lawful) (file : File) (c : UserList) (r : User)
    (hw : file.writeErr = none) :
    ∃ b, J.marshalList (c ++ [r]) = .ok b ∧ b ≠ "" ∧ J.unmarshalList b = .ok (c ++ [r]) ∧
      addUser.store J file c r = ⟨.ok "", { file with contents := b }⟩ := by
  obtain ⟨b, hb, hne, hdec⟩ := hJ.marshalList_ok (c ++ [r])
  exact ⟨b, hb, hne, hdec, by simp [addUser.store, hb, WriteFile, hw]⟩

/-- Adding a Record whose identifier is new writes the encoding of the Collection with
the Record appended, and answers with empty output. -/
theorem addUser_fresh (J : Json) (hJ : J.Lawful) (item : String) (file : File)
    (c : UserList) (r : User) (hr : file.readErr = none) (hw : file.writeErr = none)
    (hitem : J.unmarshalUser item = .ok r) (hc : Stores J file.contents c)
    (hnew : ∀ u ∈ c, u.Id ≠ r.Id) :
    ∃ b, J.marshalList (c ++ [r]) = .ok b ∧ b ≠ "" ∧ J.unmarshalList b = .ok (c ++ [r]) ∧
      addUser J item file = ⟨.ok "", { file with contents := b }⟩ := by
  obtain ⟨b, hb, hne, hdec, hst⟩ := addUser_store_eq J hJ file c r hw
  refine ⟨b, hb, hne, hdec, ?_⟩
  rcases hc with ⟨hempty, rfl⟩ | ⟨hne', hdec'⟩
  · have h0 : ¬ file.contents.length > 0 := by rw [length_pos_iff]; simp [hempty]
    have hstep : addUser J item file = addUser.store J file [] r := by
      simp only [addUser, ReadAll, hr, hitem, h0, if_false]
    rw [hstep]
    exact hst
  · have h0 : file.contents.length > 0 := (length_pos_iff _).2 hne'
    have hstep : addUser J item file = addUser.store J file c r := by
      simp only [addUser, ReadAll, hr, hitem, h0, if_true, hdec',
        (scan_eq_none_iff r.Id c 0).2 hnew]
    rw [hstep]
    exact hst

/-- Adding a Record whose identifier is present answers with the message and leaves
the file as it is. -/
theorem addUser_present (J : Json) (item : String) (file : File)
    (c : UserList) (r : User) (hr : file.readErr = none)
    (hitem : J.unmarshalUser item = .ok r) (hne : file.contents ≠ "")
    (hc : J.unmarshalList file.contents = .ok c) (hex : ∃ u ∈ c, u.Id = r.Id) :
    addUser J item file = ⟨.ok ("Item with id " ++ r.Id ++ " already exists"), file⟩ := by
  have h0 : file.contents.length > 0 := (length_pos_iff _).2 hne
  have hs : ∃ i, scan r.Id c 0 = some i := by
    cases hsc : scan r.Id c 0 with
    | some i => exact ⟨i, rfl⟩
    | none =>
      obtain ⟨u, hu, hid⟩ := hex
      exact absurd hid ((scan_eq_none_iff r.Id c 0).1 hsc u hu)
  obtain ⟨i, hi⟩ := hs
  simp only [addUser, ReadAll, hr, hitem, h0, if_true, hc, hi]

/-- Removing an identifier that the scan finds at index `i` writes the encoding of the
Collection with index `i` deleted, and answers with empty output. -/
theorem removeUserById_found (J : Json) (hJ : J.Lawful) (id : String) (file : File)
    (c : UserList) (i : Nat) (hr : file.readErr = none) (hw : file.writeErr = none)
    (hne : file.contents ≠ "") (hc : J.unmarshalList file.contents = .ok c)
    (hi : scan id c 0 = some i) :
    ∃ b, J.marshalList (removeUserById.delete c i) = .ok b ∧ b ≠ "" ∧
      J.unmarshalList b = .ok (removeUserById.delete c i) ∧
      removeUserById J id file = ⟨.ok "", { file with contents := b }⟩ := by
  obtain ⟨b, hb, hbne, hdec⟩ := hJ.marshalList_ok (removeUserById.delete c i)
  have h0 : file.contents.length > 0 := (length_pos_iff _).2 hne
  exact ⟨b, hb, hbne, hdec, by
    simp only [removeUserById, ReadAll, hr, h0, if_true, hc, hi, hb, WriteFile, hw]⟩

/-- Removing an identifier that no Record carries answers with the message and leaves
the file as it is. -/
theorem removeUserById_absent (J : Json) (id : String) (file : File) (c : UserList)
    (hr : file.readErr = none) (hc : Stores J file.contents c)
    (hno : ∀ u ∈ c, u.Id ≠ id) :
    removeUserById J id file = ⟨.ok ("Item with id " ++ id ++ " not found"), file⟩ := by
  rcases hc with ⟨hempty, _⟩ | ⟨hne, hdec⟩
  · have h0 : ¬ file.contents.length > 0 := by rw [length_pos_iff]; simp [hempty]
    simp only [removeUserById, ReadAll, hr, h0, if_false]
  · have h0 : file.contents.length > 0 := (length_pos_iff _).2 hne
    simp only [removeUserById, ReadAll, hr, h0, if_true, hdec,
      (scan_eq_none_iff id c 0).2 hno]

/-- The lookup on a file whose buffer decodes. -/
theorem findUserById_decoded (J : Json) (id : String) (file : File) (c : UserList)
    (hr : file.readErr = none) (hc : J.unmarshalList file.contents = .ok c) :
    findUserById J id file =
      match scan id c 0 with
      | some i =>
        match J.marshalUser (c.getD i default) with
        | .error err => ⟨.error err, file⟩
        | .ok result => ⟨.ok result, file⟩
      | none => ⟨.ok "", file⟩ := by
  simp only [findUserById, ReadAll, hr, hc]

/-! ### The concrete codec round-trips -/

theorem hexVal_hexDigit (n : Nat) (h : n < 16) : hexVal (hexDigit n) = some n := by
  interval_cases n <;> rfl

theorem readHex4_hex (a b c d : Nat) (ha : a < 16) (hb : b < 16) (hc : c < 16) (hd : d < 16)
    (rest : List Char) :
    readHex4 (hexDigit a :: hexDigit b :: hexDigit c :: hexDigit d :: rest) =
      some (((a * 16 + b) * 16 + c) * 16 + d, rest) := by
  simp [readHex4, hexVal_hexDigit, ha, hb, hc, hd]

theorem hexDigit_zero : hexDigit 0 = '0' := rfl

/-- Reading the escape of one character gives the character back. -/
theorem readString_escapeChar (c : Char) (fuel : Nat) (rest : List Char) :
    readString (fuel + 1) (escapeChar c ++ rest) =
      match readString fuel rest with
      | some (s, rest1) => some (c :: s, rest1)
      | none => none := by
  unfold escapeChar
  split_ifs with h1 h2 h3 h4 h5 h6 h7 h8
  · rcases h1 with rfl | rfl <;> rfl
  · subst h2; rfl
  · subst h3; rfl
  · subst h4; rfl
  · subst h5; rfl
  · subst h6; rfl
  · have hlt : c.toNat < 128 := by
      rcases h7 with h | rfl | rfl | rfl
      · omega
      all_goals decide
    have hval : ((0 * 16 + 0) * 16 + c.toNat / 16) * 16 + c.toNat % 16 = c.toNat := by omega
    have hread := readHex4_hex 0 0 (c.toNat / 16) (c.toNat % 16) (by omega) (by omega)
      (by omega) (by omega) rest
    rw [hval, hexDigit_zero] at hread
    have hs : ¬ (0xD800 ≤ c.toNat ∧ c.toNat < 0xE000) := by omega
    simp [readString, readEscape, readUnicode, hread, hs]
  · rcases h8 with rfl | rfl <;> rfl
  · have hq : c ≠ '"' := fun h => h1 (Or.inr h)
    have hb : c ≠ '\\' := fun h => h1 (Or.inl h)
    have hc : ¬ c.toNat < 32 := fun h => h7 (Or.inl h)
    simp [readString, hq, hb, hc]

theorem readString_escape (s : List Char) (fuel : Nat) (rest : List Char)
    (hfuel : s.length < fuel) :
    readString fuel (escape s ++ '"' :: rest) = some (s, rest) := by
  induction s generalizing fuel with
  | nil =>
    cases fuel with
    | zero => simp at hfuel
    | succ fuel => simp [escape, readString]
  | cons c cs ih =>
    cases fuel with
    | zero => simp at hfuel
    | succ fuel =>
      simp only [escape, List.append_assoc]
      rw [readString_escapeChar, ih fuel (by simpa using hfuel)]

theorem escapeChar_length (c : Char) : 1 ≤ (escapeChar c).length := by
  unfold escapeChar
  split_ifs <;> simp

theorem escape_length (s : List Char) : s.length ≤ (escape s).length := by
  induction s with
  | nil => simp [escape]
  | cons c cs ih =>
    have := escapeChar_length c
    simp only [escape, List.length_cons, List.length_append]
    omega

theorem readQuoted_encodeString (s : String) (rest : List Char) :
    readQuoted (encodeString s ++ rest) = some (s.data, rest) := by
  have hlen := escape_length s.data
  simp only [encodeString, readQuoted, List.cons_append, List.append_assoc, if_true,
    List.singleton_append]
  exact readString_escape s.data _ rest
    (by simp only [List.length_append, List.length_cons]; omega)

theorem digit_toNat (d : Nat) (h : d < 10) : (Char.ofNat (48 + d)).toNat = 48 + d := by
  interval_cases d <;> rfl

theorem takeDigits_of_not_digit (c : Char) (cs : List Char)
    (h : ¬ (48 ≤ c.toNat ∧ c.toNat ≤ 57)) : takeDigits (c :: cs) = ([], c :: cs) := by
  simp only [takeDigits, h, if_false]

theorem takeDigits_append (ds : List Char) (c : Char) (cs : List Char)
    (hds : ∀ d ∈ ds, 48 ≤ d.toNat ∧ d.toNat ≤ 57) (h : ¬ (48 ≤ c.toNat ∧ c.toNat ≤ 57)) :
    takeDigits (ds ++ c :: cs) = (ds, c :: cs) := by
  induction ds with
  | nil => exact takeDigits_of_not_digit c cs h
  | cons d ds ih =>
    have hd := hds d (List.mem_cons_self d ds)
    have ih1 := ih (fun x hx => hds x (List.mem_cons_of_mem d hx))
    rw [List.cons_append]
    simp only [takeDigits, hd, and_self, if_true]
    rw [ih1]

theorem putNat_digits (fuel n : Nat) (acc : List Char)
    (hacc : ∀ d ∈ acc, 48 ≤ d.toNat ∧ d.toNat ≤ 57) :
    ∀ d ∈ putNat fuel n acc, 48 ≤ d.toNat ∧ d.toNat ≤ 57 := by
  induction fuel generalizing n acc with
  | zero => simpa [putNat] using hacc
  | succ fuel ih =>
    have hmod : n % 10 < 10 := Nat.mod_lt _ (by decide)
    unfold putNat
    split_ifs with h
    · intro d hd
      rcases List.mem_cons.1 hd with rfl | hd
      · rw [digit_toNat n h]; omega
      · exact hacc d hd
    · apply ih
      intro d hd
      rcases List.mem_cons.1 hd with rfl | hd
      · rw [digit_toNat (n % 10) hmod]; omega
      · exact hacc d hd

theorem digitsValue_cons (a : Nat) (c : Char) (cs : List Char) :
    digitsValue a (c :: cs) = digitsValue (a * 10 + (c.toNat - 48)) cs := rfl

theorem putNat_value (fuel n : Nat) (acc : List Char) (hfuel : n < fuel) :
    digitsValue 0 (putNat fuel n acc) = digitsValue n acc := by
  induction fuel generalizing n acc with
  | zero => omega
  | succ fuel ih =>
    have hmod : n % 10 < 10 := Nat.mod_lt _ (by decide)
    unfold putNat
    split_ifs with h
    · have harith : 0 * 10 + (48 + n - 48) = n := by omega
      have hc := digit_toNat n h
      generalize Char.ofNat (48 + n) = ch at hc
      rw [digitsValue_cons, hc, harith]
    · have hdiv : n / 10 < fuel := by omega
      have harith : n / 10 * 10 + (48 + n % 10 - 48) = n := by omega
      have hc := digit_toNat (n % 10) hmod
      have ih1 := ih (n / 10) (Char.ofNat (48 + n % 10) :: acc) hdiv
      generalize Char.ofNat (48 + n % 10) = ch at hc ih1
      rw [ih1, digitsValue_cons, hc, harith]

/-- The digits of a number start with a digit other than `0`, unless the number is
zero, whose only digit is `0`. -/
theorem putNat_head (fuel n : Nat) (acc : List Char) (hfuel : n < fuel) :
    ∃ d tl, putNat fuel n acc = d :: tl ∧ (d = '0' → n = 0 ∧ tl = acc) := by
  induction fuel generalizing n acc with
  | zero => omega
  | succ fuel ih =>
    unfold putNat
    split_ifs with h
    · refine ⟨_, acc, rfl, fun hd => ⟨?_, rfl⟩⟩
      have h1 := congrArg Char.toNat hd
      rw [digit_toNat n h] at h1
      have h2 : ('0' : Char).toNat = 48 := rfl
      omega
    · have hdiv : n / 10 < fuel := by omega
      obtain ⟨d, tl, heq, hz⟩ := ih (n / 10) (Char.ofNat (48 + n % 10) :: acc) hdiv
      refine ⟨d, tl, heq, fun hd => ?_⟩
      have := (hz hd).1
      omega

theorem readNat_putNat (n : Nat) (c : Char) (cs : List Char)
    (h : ¬ (48 ≤ c.toNat ∧ c.toNat ≤ 57)) :
    readNat (putNat (n + 1) n [] ++ c :: cs) = some (n, c :: cs) := by
  have htake := takeDigits_append (putNat (n + 1) n []) c cs
    (putNat_digits (n + 1) n [] (by simp)) h
  have hval : digitsValue 0 (putNat (n + 1) n []) = n :=
    putNat_value (n + 1) n [] (Nat.lt_succ_self n)
  obtain ⟨d, tl, heq, hz⟩ := putNat_head (n + 1) n [] (Nat.lt_succ_self n)
  rw [heq] at htake hval
  rw [heq]
  unfold readNat
  rw [htake]
  cases tl with
  | nil => simp only [hval]
  | cons t tl =>
    have hd : d ≠ '0' := fun hd => by simpa using (hz hd).2
    simp only [hd, if_false, hval]

theorem readInt_encodeInt (z : Int) (c : Char) (cs : List Char)
    (h : ¬ (48 ≤ c.toNat ∧ c.toNat ≤ 57)) :
    readInt (encodeInt z ++ c :: cs) = some (z, c :: cs) := by
  cases z with
  | ofNat n =>
    have hread := readNat_putNat n c cs h
    have hdig := putNat_digits (n + 1) n [] (by simp)
    obtain ⟨d, tl, heq, _⟩ := putNat_head (n + 1) n [] (Nat.lt_succ_self n)
    have hd : d ≠ '-' := by
      intro hd
      have := hdig d (by rw [heq]; exact List.mem_cons_self d tl)
      rw [hd] at this
      exact absurd this (by decide)
    simp only [encodeInt]
    rw [heq] at hread ⊢
    simp only [List.cons_append] at hread ⊢
    simp only [readInt, hd, if_false, hread]
    rfl
  | negSucc n =>
    have hread := readNat_putNat (n + 1) c cs h
    simp only [encodeInt, List.cons_append, readInt, if_true, hread]
    rfl

theorem expect_append (p s : List Char) : expect p (p ++ s) = some s := by
  induction p with
  | nil => cases s <;> rfl
  | cons c p ih => simp [expect, ih]

theorem readUser_encodeUser (u : User) (rest : List Char) :
    readUser (encodeUser u ++ rest) = some (u, rest) := by
  have hbrace : ¬ (48 ≤ ('}' : Char).toNat ∧ ('}' : Char).toNat ≤ 57) := by decide
  simp only [encodeUser, List.append_assoc, readUser, expect_append, readQuoted_encodeString,
    List.singleton_append, readInt_encodeInt u.Age '}' rest hbrace]
  simp [expect]

theorem encodeTail_length (l : UserList) : l.length < (encodeTail l).length := by
  induction l with
  | nil => simp [encodeTail]
  | cons u l ih =>
    simp only [encodeTail, List.length_cons, List.length_append]
    omega

theorem readTail_encodeTail (l : UserList) (fuel : Nat) (rest : List Char)
    (hfuel : l.length < fuel) :
    readTail fuel (encodeTail l ++ rest) = some (l, rest) := by
  induction l generalizing fuel with
  | nil =>
    cases fuel with
    | zero => simp at hfuel
    | succ fuel => simp [encodeTail, readTail]
  | cons u l ih =>
    cases fuel with
    | zero => simp at hfuel
    | succ fuel =>
      have hne : (',' : Char) ≠ ']' := by decide
      rw [encodeTail, List.cons_append, List.append_assoc]
      simp only [readTail, hne, if_false, if_true, readUser_encodeUser,
        ih fuel (by simpa using hfuel)]

theorem encodeUser_eq_cons (u : User) : ∃ tl, encodeUser u = '\x7b' :: tl :=
  ⟨_, rfl⟩

theorem readList_encodeList (l : UserList) (rest : List Char) :
    readList (encodeList l ++ rest) = some (l, rest) := by
  cases l with
  | nil => simp [encodeList, readList]
  | cons u l =>
    have hread := readUser_encodeUser u (encodeTail l ++ rest)
    obtain ⟨tl, htl⟩ := encodeUser_eq_cons u
    have hfuel : l.length < (encodeTail l ++ rest).length := by
      have := encodeTail_length l
      simp only [List.length_append]
      omega
    have htail := readTail_encodeTail l _ rest hfuel
    simp only [encodeList, List.cons_append, List.append_assoc]
    rw [htl] at hread ⊢
    simp only [List.cons_append] at hread ⊢
    have hne : ¬ (('[' : Char) = '[' ∧ ('\x7b' : Char) = ']') := by decide
    rw [readList, if_neg hne, if_pos rfl, hread]
    simp only [htail]

theorem decodeWhole_mk {α : Type} (read : List Char → Option (α × List Char))
    (cs : List Char) (a : α) (hne : cs ≠ []) (h : read cs = some (a, [])) :
    decodeWhole read (String.mk cs) = .ok a := by
  have hs : String.mk cs ≠ "" := by
    intro hs
    exact hne (congrArg String.data hs)
  simp only [decodeWhole, hs, if_false, h]

/-- The concrete codec satisfies the laws. -/
theorem goJson_lawful : goJson.Lawful where
  marshalList_ok := by
    intro l
    have hne : encodeList l ≠ [] := by cases l <;> simp [encodeList]
    refine ⟨String.mk (encodeList l), rfl, ?_, ?_⟩
    · intro hs
      exact hne (congrArg String.data hs)
    · have := readList_encodeList l []
      rw [List.append_nil] at this
      exact decodeWhole_mk readList _ l hne this
  marshalUser_ok := by
    intro u
    obtain ⟨tl, htl⟩ := encodeUser_eq_cons u
    have hne : encodeUser u ≠ [] := by rw [htl]; simp
    refine ⟨String.mk (encodeUser u), rfl, ?_⟩
    have := readUser_encodeUser u []
    rw [List.append_nil] at this
    exact decodeWhole_mk readUser _ u hne this

/-! ### The file name -/

theorem splitDot_ne_nil (s : List Char) : splitDot s ≠ [] := by
  cases s with
  | nil => simp [splitDot]
  | cons c cs =>
    unfold splitDot
    split_ifs
    · simp
    · split <;> simp

theorem splitDot_of_no_dot (s : List Char) (h : '.' ∉ s) : splitDot s = [s] := by
  induction s with
  | nil => rfl
  | cons c cs ih =>
    have hc : c ≠ '.' := fun hc => h (by simp [hc])
    have hcs : '.' ∉ cs := fun hcs => h (List.mem_cons_of_mem c hcs)
    simp [splitDot, hc, ih hcs]

theorem splitDot_length_of_dot (s : List Char) (h : '.' ∈ s) : 2 ≤ (splitDot s).length := by
  induction s with
  | nil => simp at h
  | cons c cs ih =>
    by_cases hc : c = '.'
    · have := List.length_pos.2 (splitDot_ne_nil cs)
      simp only [splitDot, hc, if_true, List.length_cons]
      omega
    · have hcs : '.' ∈ cs := by
        rcases List.mem_cons.1 h with h1 | h1
        · exact absurd h1.symm hc
        · exact h1
      have := ih hcs
      simp only [splitDot, hc, if_false]
      split
      · rename_i heq; rw [heq] at this; simp at this
      · rename_i piece pieces heq; rw [heq] at this; simpa using this

theorem lastPiece_cons (p : List Char) (ps : List (List Char)) (h : ps ≠ []) :
    lastPiece (p :: ps) = lastPiece ps := by
  cases ps with
  | nil => exact absurd rfl h
  | cons q qs => simp [lastPiece]

/-- What `checkFilename` compares with the extension: `x` is the last piece of the
split exactly when `x` has no dot and the name is `x` or ends with a dot and `x`. -/
theorem lastPiece_splitDot_eq_iff (s x : List Char) :
    lastPiece (splitDot s) = x ↔ '.' ∉ x ∧ (s = x ∨ ∃ p, s = p ++ '.' :: x) := by
  induction s with
  | nil =>
    constructor
    · intro h
      have hx : x = [] := h.symm
      subst hx
      exact ⟨by simp, Or.inl rfl⟩
    · rintro ⟨_, h | ⟨p, h⟩⟩
      · subst h; rfl
      · simp at h
  | cons c cs ih =>
    by_cases hc : c = '.'
    · subst hc
      have hstep : lastPiece (splitDot ('.' :: cs)) = lastPiece (splitDot cs) := by
        simp only [splitDot, if_true]
        exact lastPiece_cons _ _ (splitDot_ne_nil cs)
      rw [hstep, ih]
      constructor
      · rintro ⟨hx, h | ⟨p, h⟩⟩
        · exact ⟨hx, Or.inr ⟨[], by simp [h]⟩⟩
        · exact ⟨hx, Or.inr ⟨'.' :: p, by simp [h]⟩⟩
      · rintro ⟨hx, h | ⟨p, h⟩⟩
        · exact absurd (by rw [← h]; simp) hx
        · cases p with
          | nil => exact ⟨hx, Or.inl (by simpa using h)⟩
          | cons q p => exact ⟨hx, Or.inr ⟨p, by simpa using (List.cons.inj h).2⟩⟩
    · by_cases hcs : '.' ∈ cs
      · have hlen := splitDot_length_of_dot cs hcs
        have hstep : lastPiece (splitDot (c :: cs)) = lastPiece (splitDot cs) := by
          simp only [splitDot, hc, if_false]
          split
          · rename_i heq; rw [heq] at hlen; simp at hlen
          · rename_i piece pieces heq
            rw [heq] at hlen ⊢
            have hps : pieces ≠ [] := by
              intro h0; rw [h0] at hlen; simp at hlen
            rw [lastPiece_cons _ _ hps, lastPiece_cons _ _ hps]
        rw [hstep, ih]
        constructor
        · rintro ⟨hx, h | ⟨p, h⟩⟩
          · exact absurd (h ▸ hcs) hx
          · exact ⟨hx, Or.inr ⟨c :: p, by simp [h]⟩⟩
        · rintro ⟨hx, h | ⟨p, h⟩⟩
          · exact absurd (by rw [← h]; exact List.mem_cons_of_mem c hcs) hx
          · cases p with
            | nil => exact absurd (List.cons.inj h).1 hc
            | cons q p => exact ⟨hx, Or.inr ⟨p, by simpa using (List.cons.inj h).2⟩⟩
      · have hno : '.' ∉ c :: cs := by
          intro h
          rcases List.mem_cons.1 h with h1 | h1
          · exact hc h1.symm
          · exact hcs h1
        rw [splitDot_of_no_dot _ hno]
        constructor
        · intro h
          have hx : x = c :: cs := h.symm
          subst hx
          exact ⟨hno, Or.inl rfl⟩
        · rintro ⟨_, h | ⟨p, h⟩⟩
          · rw [← h]; rfl
          · exact absurd (by rw [h]; simp) hno

theorem finalSegment_spec (s : List Char) :
    '.' ∉ finalSegment s ∧ (s = finalSegment s ∨ ∃ p, s = p ++ '.' :: finalSegment s) := by
  unfold finalSegment
  constructor
  · intro h
    have := List.mem_takeWhile_imp (List.mem_reverse.1 h)
    simp at this
  · have hsplit := List.takeWhile_append_dropWhile (fun c => decide (c ≠ '.')) s.reverse
    have hs : s = (s.reverse.dropWhile (fun c => decide (c ≠ '.'))).reverse ++
        (s.reverse.takeWhile (fun c => decide (c ≠ '.'))).reverse := by
      rw [← List.reverse_append, hsplit, List.reverse_reverse]
    cases hdw : s.reverse.dropWhile (fun c => decide (c ≠ '.')) with
    | nil =>
      left
      rw [hdw] at hs
      simpa using hs
    | cons d ds =>
      right
      have hd : d = '.' := by
        have := List.head_dropWhile_not (fun c => decide (c ≠ '.')) s.reverse (by rw [hdw]; simp)
        simp only [hdw, List.head_cons] at this
        simpa using this
      refine ⟨ds.reverse, ?_⟩
      rw [hdw, hd] at hs
      simpa using hs

/-- The last piece of the split is the final dot-delimited segment. -/
theorem lastPiece_splitDot (s : List Char) : lastPiece (splitDot s) = finalSegment s :=
  (lastPiece_splitDot_eq_iff s (finalSegment s)).2 (finalSegment_spec s)

theorem checkFilename_eq (filename : String) :
    checkFilename filename =
      if filename = "" then some .errorEmptyFileName
      else if finalSegment filename.data ≠ "json".data then some .errorInvalidFileExtension
      else none := by
  have h := lastPiece_splitDot filename.data
  unfold lastPiece at h
  simp only [checkFilename, FILE_EXT, h]

/-- C5: `checkFlags` reports the error of the first failing check, in the fixed order
operation missing, operation not allowed, item missing for `add`, identifier missing
for `findById` and `remove`, file name missing, final dot-delimited segment of the
file name other than `json`; it reports no error when no check fails. -/
theorem checkFlags_first_failure (args : Arguments) :
    checkFlags args = firstFailure args := by
  simp only [checkFlags, firstFailure, validatorChecks, List.findSome?, checkFilename_eq,
    FLAG_ID, FLAG_ITEM, FLAG_OPERATION, FLAG_FILENAME, OPERATION_ADD, OPERATION_FIND,
    OPERATION_LIST, OPERATION_RM]
  by_cases h1 : args.get "operation" = ""
  · simp [h1]
  · by_cases h2 : args.get "operation" ∉ ["add", "list", "findById", "remove"]
    · have h2' : args.get "operation" ≠ "add" ∧ args.get "operation" ≠ "findById" ∧
          args.get "operation" ≠ "list" ∧ args.get "operation" ≠ "remove" := by
        simp only [List.mem_cons, List.mem_singleton, not_or, List.not_mem_nil,
          or_false] at h2
        tauto
      simp [h1, h2, h2']
    · have h2' : ¬ (args.get "operation" ≠ "add" ∧ args.get "operation" ≠ "findById" ∧
          args.get "operation" ≠ "list" ∧ args.get "operation" ≠ "remove") := by
        simp only [List.mem_cons, List.mem_singleton, not_or, List.not_mem_nil,
          or_false] at h2
        tauto
      simp only [h1, if_false, h2', h2]
      by_cases h3 : args.get "operation" = "add" ∧
          (args.get "item" = "" ∨ args.get "item" = "\x7b\x7d")
      · simp [h3]
      · simp only [h3, if_false]
        by_cases h4 : (args.get "operation" = "findById" ∨ args.get "operation" = "remove") ∧
            args.get "id" = ""
        · simp [h4]
        · simp only [h4, if_false]
          by_cases h5 : args.get "fileName" = ""
          · simp [h5]
          · simp only [h5, if_false]
            by_cases h6 : finalSegment (args.get "fileName").data ≠ "json".data
            · simp [h6]
            · simp [h6]

/-- The validator on sample flags: with several checks failing, the earliest one is
reported. -/
theorem checkFlags_samples :
    checkFlags [("item", "\x7b\x7d"), ("fileName", "users.txt")] = some .errorEmptyOperation ∧
      checkFlags [("operation", "abcd"), ("fileName", "")] =
        some (.errorBadOperationType "abcd") ∧
      checkFlags [("operation", "add"), ("item", "\x7b\x7d"), ("fileName", "")] =
        some .errorEmptyItem ∧
      checkFlags [("operation", "findById"), ("fileName", "users.txt")] = some .errorEmptyId ∧
      checkFlags [("operation", "remove"), ("id", "1")] = some .errorEmptyFileName ∧
      checkFlags [("operation", "list"), ("fileName", "users.txt")] =
        some .errorInvalidFileExtension ∧
      checkFlags [("operation", "list"), ("fileName", "users.json")] = none := by
  decide

/-- C6, the failing input: the name `json` has no dot, hence no extension, and does not
end in `.json`; `checkFilename` takes the whole name for the extension and accepts it,
against its own help text (`Only .json allowed`). -/
theorem checkFilename_accepts_bare_json :
    checkFilename "json" = none ∧ ¬ ∃ p : String, "json" = p ++ ".json" := by
  refine ⟨by decide, ?_⟩
  rintro ⟨p, hp⟩
  have := congrArg String.length hp
  simp [String.length_append] at this
  have h4 : "json".length = 4 := by decide
  have h5 : ".json".length = 5 := by decide
  omega

/-- The extent of the slip in `checkFilename`: the dotless name `json` is the only name
it accepts that does not end in `.json`; every name that ends in `.json` is accepted
and every other name is rejected. -/
theorem checkFilename_eq_none_iff (filename : String) :
    checkFilename filename = none ↔
      filename = "json" ∨ ∃ p : String, filename = p ++ ".json" := by
  have hdot : '.' ∉ "json".data := by decide
  have hkey := lastPiece_splitDot_eq_iff filename.data "json".data
  rw [lastPiece_splitDot] at hkey
  rw [checkFilename_eq]
  constructor
  · intro h
    split_ifs at h with h1 h2
    have hseg : finalSegment filename.data = "json".data := not_not.1 h2
    rcases (hkey.1 hseg).2 with hd | ⟨p, hd⟩
    · exact Or.inl (String.ext hd)
    · exact Or.inr ⟨String.mk p, String.ext (by rw [hd]; rfl)⟩
  · intro h
    have hseg : finalSegment filename.data = "json".data := by
      apply hkey.2
      refine ⟨hdot, ?_⟩
      rcases h with h | ⟨p, h⟩
      · exact Or.inl (by rw [h])
      · exact Or.inr ⟨p.data, by rw [h]; rfl⟩
    have hne : filename ≠ "" := by
      intro h0
      rw [h0] at hseg
      exact absurd hseg (by decide)
    simp [hne, hseg]

theorem scan_append_new (id : String) (c : UserList) (r : User) (k : Nat)
    (hnew : ∀ u ∈ c, u.Id ≠ id) (hr : r.Id = id) :
    scan id (c ++ [r]) k = some (k + c.length) := by
  induction c generalizing k with
  | nil => simp [scan, hr]
  | cons u c ih =>
    have hu : u.Id ≠ id := hnew u (List.mem_cons_self u c)
    have ih1 := ih (k + 1) (fun v hv => hnew v (List.mem_cons_of_mem u hv))
    have harith : k + 1 + c.length = k + (u :: c).length := by
      rw [List.length_cons]; omega
    rw [List.cons_append]
    simp only [scan, hu, if_false]
    rw [ih1, harith]

theorem stores_nonempty (J : Json) (buffer : String) (c : UserList)
    (hc : Stores J buffer c) (hne : c ≠ []) :
    buffer ≠ "" ∧ J.unmarshalList buffer = .ok c := by
  rcases hc with ⟨_, h⟩ | h
  · exact absurd h hne
  · exact h

theorem eraseIdx_countP (p : User → Bool) (l : UserList) (i : Nat) (u : User)
    (h : l[i]? = some u) :
    l.countP p = (l.eraseIdx i).countP p + if p u = true then 1 else 0 := by
  induction l generalizing i with
  | nil => simp at h
  | cons v l ih =>
    cases i with
    | zero =>
      simp only [List.getElem?_cons_zero, Option.some.injEq] at h
      subst h
      simp [List.countP_cons]
    | succ i =>
      simp only [List.getElem?_cons_succ] at h
      simp only [List.eraseIdx_cons_succ, List.countP_cons, ih i h]
      omega

/-- Deleting index `i` takes away exactly one occurrence of the Record at `i`. -/
theorem delete_countP (p : User → Bool) (l : UserList) (i : Nat) (u : User)
    (h : l[i]? = some u) :
    l.countP p = (removeUserById.delete l i).countP p + if p u = true then 1 else 0 := by
  have hi : i < l.length := by
    rcases Nat.lt_or_ge i l.length with hlt | hge
    · exact hlt
    · rw [List.getElem?_eq_none hge] at h
      exact absurd h (by simp)
  rw [(delete_perm l i hi).countP_eq p]
  exact eraseIdx_countP p l i u h

/-- C1: on a readable and writable resource that holds the Collection `c`, adding a
Record `r` whose identifier no Record of `c` carries and then looking up `r.Id` in the
resulting resource returns, without error, the encoding of `r`, a text that decodes to
`r` (same id, email and age). -/
theorem add_then_find_returns_record (J : Json) (hJ : J.Lawful) (item : String) (file : File)
    (c : UserList) (r : User) (hr : file.readErr = none) (hw : file.writeErr = none)
    (hitem : J.unmarshalUser item = .ok r) (hc : Stores J file.contents c)
    (hnew : ∀ u ∈ c, u.Id ≠ r.Id) :
    ∃ b, (findUserById J r.Id (addUser J item file).file).out = .ok b ∧
      J.marshalUser r = .ok b ∧ J.unmarshalUser b = .ok r := by
  obtain ⟨b, _, _, hdec, hadd⟩ := addUser_fresh J hJ item file c r hr hw hitem hc hnew
  obtain ⟨e, he, hback⟩ := hJ.marshalUser_ok r
  refine ⟨e, ?_, he, hback⟩
  rw [hadd]
  have hfind := findUserById_decoded J r.Id { file with contents := b } (c ++ [r]) hr hdec
  have hscan := scan_append_new r.Id c r 0 hnew rfl
  have hget : (c ++ [r]).getD (0 + c.length) default = r := by
    simp [List.getD_eq_getElem?_getD]
  rw [hfind, hscan]
  simp only [hget, he]

/-- C2: on a readable resource that holds the Collection `c`, adding a Record `r` whose
identifier some Record of `c` carries returns no error and the text
`Item with id <r.Id> already exists`, and leaves the resource as it was. -/
theorem add_existing_reports_and_keeps_file (J : Json) (item : String) (file : File)
    (c : UserList) (r : User) (hr : file.readErr = none)
    (hitem : J.unmarshalUser item = .ok r) (hc : Stores J file.contents c)
    (hex : ∃ u ∈ c, u.Id = r.Id) :
    (addUser J item file).out = .ok ("Item with id " ++ r.Id ++ " already exists") ∧
      (addUser J item file).file = file := by
  have hne : c ≠ [] := by
    obtain ⟨u, hu, _⟩ := hex
    exact List.ne_nil_of_mem hu
  obtain ⟨hbuf, hdec⟩ := stores_nonempty J file.contents c hc hne
  rw [addUser_present J item file c r hr hitem hbuf hdec hex]
  exact ⟨rfl, rfl⟩

/-- C4: on a readable resource that is empty or holds the Collection `c`, removing an
identifier that no Record carries returns no error and the text
`Item with id <id> not found`, and leaves the resource as it was. -/
theorem remove_absent_reports_and_keeps_file (J : Json) (id : String) (file : File)
    (c : UserList) (hr : file.readErr = none) (hc : Stores J file.contents c)
    (hno : ∀ u ∈ c, u.Id ≠ id) :
    (removeUserById J id file).out = .ok ("Item with id " ++ id ++ " not found") ∧
      (removeUserById J id file).file = file := by
  rw [removeUserById_absent J id file c hr hc hno]
  exact ⟨rfl, rfl⟩

/-- C9: on a readable and writable resource that holds the Collection `col` (the empty
buffer holds the empty Collection), adding a Record `r` with a new identifier returns
empty output and no error and writes the encoding of `col` with `r` appended: the
Collection in the resource afterwards is `col ++ [r]`, one longer than `col`, with the
Records of `col` at their places and `r` last. On the empty resource it is `[r]`. -/
theorem add_new_appends (J : Json) (hJ : J.Lawful) (item : String) (file : File)
    (col : UserList) (r : User) (hr : file.readErr = none) (hw : file.writeErr = none)
    (hitem : J.unmarshalUser item = .ok r) (hc : Stores J file.contents col)
    (hnew : ∀ u ∈ col, u.Id ≠ r.Id) :
    ∃ b l, (addUser J item file).out = .ok "" ∧
      (addUser J item file).file = { file with contents := b } ∧
      J.marshalList l = .ok b ∧ Stores J b l ∧ J.unmarshalList b = .ok l ∧
      l = col ++ [r] ∧ l.length = col.length + 1 ∧
      (∀ j, j < col.length → l[j]? = col[j]?) ∧ l[col.length]? = some r ∧
      (file.contents = "" → l = [r]) := by
  obtain ⟨b, hb, hne, hdec, hadd⟩ := addUser_fresh J hJ item file col r hr hw hitem hc hnew
  refine ⟨b, col ++ [r], by rw [hadd], by rw [hadd], hb, Or.inr ⟨hne, hdec⟩, hdec, rfl,
    by simp, ?_, by simp, ?_⟩
  · intro j hj
    exact List.getElem?_append_left hj
  · intro hempty
    rcases hc with ⟨_, h⟩ | ⟨h, _⟩
    · rw [h]; rfl
    · exact absurd hempty h

theorem scan_some_of_exists (id : String) (l : UserList) (h : ∃ u ∈ l, u.Id = id) :
    ∃ i u, scan id l 0 = some i ∧ l[i]? = some u ∧ u.Id = id := by
  cases hs : scan id l 0 with
  | none =>
    obtain ⟨u, hu, hid⟩ := h
    exact absurd hid ((scan_eq_none_iff id l 0).1 hs u hu)
  | some i =>
    obtain ⟨j, hj, ⟨u, hu, hid⟩, _⟩ := (scan_eq_some_iff id l 0 i).1 hs
    have hij : i = j := by omega
    subst hij
    exact ⟨i, u, rfl, hu, hid⟩

/-- C3, counterexample: in the stored Collection `[alice, twin]` both Records carry the
identifier `1`; removing `1` deletes the first of them only, and the lookup of `1`
that follows returns the other one, not an empty result. -/
theorem remove_then_find_twin_found :
    Stores goJson twinFile.contents [alice, twin] ∧ (∃ u ∈ [alice, twin], u.Id = "1") ∧
      (findUserById goJson "1" (removeUserById goJson "1" twinFile).file).out =
        .ok "\x7b\"id\":\"1\",\"email\":\"c@x.com\",\"age\":52\x7d" ∧
      (findUserById goJson "1" (removeUserById goJson "1" twinFile).file).out ≠ .ok "" := by
  refine ⟨Or.inr ⟨by decide, by decide⟩, ⟨alice, by simp, rfl⟩, by decide, by decide⟩

/-- C3, amended: on a readable and writable resource that holds a Collection `c` in
which exactly one Record carries the identifier `id`, as in every Collection with
pairwise distinct identifiers that has a Record with `id`, removing `id` and then
looking `id` up in the resulting resource yields an empty result and no error. -/
theorem remove_then_find_empty (J : Json) (hJ : J.Lawful) (id : String) (file : File)
    (c : UserList) (hr : file.readErr = none) (hw : file.writeErr = none)
    (hc : Stores J file.contents c)
    (hone : c.countP (fun u => decide (u.Id = id)) = 1) :
    (findUserById J id (removeUserById J id file).file).out = .ok "" := by
  have hex : ∃ u ∈ c, u.Id = id := by
    have hpos : 0 < c.countP (fun u => decide (u.Id = id)) := by omega
    obtain ⟨u, hu, hid⟩ := List.countP_pos_iff.1 hpos
    exact ⟨u, hu, by simpa using hid⟩
  have hne : c ≠ [] := by
    obtain ⟨u, hu, _⟩ := hex
    exact List.ne_nil_of_mem hu
  obtain ⟨hbuf, hdec⟩ := stores_nonempty J file.contents c hc hne
  obtain ⟨i, u, hscan, hu, hid⟩ := scan_some_of_exists id c hex
  obtain ⟨b, _, _, hdec', hrem⟩ := removeUserById_found J hJ id file c i hr hw hbuf hdec hscan
  have hcount := delete_countP (fun u => decide (u.Id = id)) c i u hu
  simp only [hid, decide_True, if_true] at hcount
  have hzero : (removeUserById.delete c i).countP (fun u => decide (u.Id = id)) = 0 := by
    omega
  have hnone : scan id (removeUserById.delete c i) 0 = none := by
    rw [scan_eq_none_iff]
    intro v hv
    have := List.countP_eq_zero.1 hzero v hv
    simpa using this
  rw [hrem, findUserById_decoded J id { file with contents := b } _ hr hdec', hnone]

/-- C10: on a readable and writable resource that holds the Collection `col` of length
`n`, with `i` the smallest index whose Record carries `id`, removing `id` returns empty
output and no error and writes the encoding of a Collection `l` of length `n - 1` in
which position `i` holds the former last Record (when `i < n - 1`) and every other
position holds what it held in `col`; `l` is `col` without the Record at `i` up to
order, it has one occurrence of `id` less than `col`, and it is empty when `col` had
one Record. -/
theorem remove_swaps_last_into_place (J : Json) (hJ : J.Lawful) (id : String) (file : File)
    (col : UserList) (i : Nat) (u : User)
    (hr : file.readErr = none) (hw : file.writeErr = none)
    (hc : Stores J file.contents col) (hi : col[i]? = some u) (hid : u.Id = id)
    (hmin : ∀ j, j < i → ∀ v, col[j]? = some v → v.Id ≠ id) :
    ∃ b l, (removeUserById J id file).out = .ok "" ∧
      (removeUserById J id file).file = { file with contents := b } ∧
      J.marshalList l = .ok b ∧ J.unmarshalList b = .ok l ∧
      l.length = col.length - 1 ∧
      (∀ j, j < col.length - 1 → l[j]? = if j = i then col[col.length - 1]? else col[j]?) ∧
      l.Perm (col.eraseIdx i) ∧
      l.countP (fun v => decide (v.Id = id)) + 1 = col.countP (fun v => decide (v.Id = id)) ∧
      (col.length = 1 → l = []) := by
  have hlt : i < col.length := by
    rcases Nat.lt_or_ge i col.length with hlt | hge
    · exact hlt
    · rw [List.getElem?_eq_none hge] at hi
      exact absurd hi (by simp)
  have hne : col ≠ [] := by
    intro h0
    rw [h0] at hlt
    simp at hlt
  obtain ⟨hbuf, hdec⟩ := stores_nonempty J file.contents col hc hne
  have hscan : scan id col 0 = some i :=
    (scan_eq_some_iff id col 0 i).2 ⟨i, by omega, ⟨u, hi, hid⟩, hmin⟩
  obtain ⟨b, hb, _, hdec', hrem⟩ :=
    removeUserById_found J hJ id file col i hr hw hbuf hdec hscan
  have hcount := delete_countP (fun v => decide (v.Id = id)) col i u hi
  simp only [hid, decide_True, if_true] at hcount
  refine ⟨b, removeUserById.delete col i, by rw [hrem], by rw [hrem], hb, hdec',
    delete_length col i, fun j hj => delete_getElem? col i j hlt hj, delete_perm col i hlt,
    hcount.symm, ?_⟩
  intro h1
  apply List.eq_nil_of_length_eq_zero
  rw [delete_length, h1]

theorem uniqueIds_append (c : UserList) (r : User) (hu : UniqueIds c)
    (hnew : ∀ u ∈ c, u.Id ≠ r.Id) : UniqueIds (c ++ [r]) := by
  unfold UniqueIds at hu ⊢
  rw [List.map_append, List.nodup_append]
  refine ⟨hu, by simp, ?_⟩
  intro a ha hb
  simp only [List.map_cons, List.map_nil, List.mem_singleton] at hb
  obtain ⟨u, hmem, hid⟩ := List.mem_map.1 ha
  exact hnew u hmem (hid.trans hb)

theorem uniqueIds_delete (c : UserList) (i : Nat) (hi : i < c.length) (hu : UniqueIds c) :
    UniqueIds (removeUserById.delete c i) := by
  unfold UniqueIds at hu ⊢
  have hperm := (delete_perm c i hi).map User.Id
  rw [hperm.nodup_iff]
  exact hu.sublist ((List.eraseIdx_sublist c i).map User.Id)

theorem store_writeErr (J : Json) (file : File) (l : UserList) (r : User)
    (hw : file.writeErr = none) : (addUser.store J file l r).file.writeErr = none := by
  cases hm : J.marshalList (l ++ [r]) with
  | error err => simp only [addUser.store, hm, hw]
  | ok b => simp only [addUser.store, hm, WriteFile, hw]

theorem addUser_writeErr (J : Json) (item : String) (file : File)
    (hw : file.writeErr = none) : (addUser J item file).file.writeErr = none := by
  cases h1 : ReadAll file with
  | error err => simp only [addUser, h1, hw]
  | ok buffer =>
    cases h2 : J.unmarshalUser item with
    | error err => simp only [addUser, h1, h2, hw]
    | ok r =>
      by_cases h0 : buffer.length > 0
      · cases h3 : J.unmarshalList buffer with
        | error err => simp only [addUser, h1, h2, h0, if_true, h3, hw]
        | ok l =>
          cases h4 : scan r.Id l 0 with
          | some i => simp only [addUser, h1, h2, h0, if_true, h3, h4, hw]
          | none =>
            simp only [addUser, h1, h2, h0, if_true, h3, h4]
            exact store_writeErr J file l r hw
      · simp only [addUser, h1, h2, h0, if_false]
        exact store_writeErr J file [] r hw

theorem removeUserById_writeErr (J : Json) (id : String) (file : File)
    (hw : file.writeErr = none) : (removeUserById J id file).file.writeErr = none := by
  cases h1 : ReadAll file with
  | error err => simp only [removeUserById, h1, hw]
  | ok buffer =>
    by_cases h0 : buffer.length > 0
    · cases h3 : J.unmarshalList buffer with
      | error err => simp only [removeUserById, h1, h0, if_true, h3, hw]
      | ok l =>
        cases h4 : scan id l 0 with
        | none => simp only [removeUserById, h1, h0, if_true, h3, h4, hw]
        | some i =>
          cases h5 : J.marshalList (removeUserById.delete l i) with
          | error err => simp only [removeUserById, h1, h0, if_true, h3, h4, h5, hw]
          | ok data => simp only [removeUserById, h1, h0, if_true, h3, h4, h5, WriteFile, hw]
    · simp only [removeUserById, h1, h0, if_false, hw]

/-- Adding keeps the identifiers of the stored Collection pairwise distinct. -/
theorem addUser_keeps_unique (J : Json) (hJ : J.Lawful) (item : String) (file : File)
    (c : UserList) (hw : file.writeErr = none) (hc : Stores J file.contents c)
    (hu : UniqueIds c) :
    ∃ l, Stores J (addUser J item file).file.contents l ∧ UniqueIds l := by
  cases hr : file.readErr with
  | some err =>
    have : addUser J item file = ⟨.error err, file⟩ := by simp only [addUser, ReadAll, hr]
    exact ⟨c, by rw [this]; exact hc, hu⟩
  | none =>
    cases hitem : J.unmarshalUser item with
    | error err =>
      have : addUser J item file = ⟨.error err, file⟩ := by
        simp only [addUser, ReadAll, hr, hitem]
      exact ⟨c, by rw [this]; exact hc, hu⟩
    | ok r =>
      by_cases hnew : ∀ u ∈ c, u.Id ≠ r.Id
      · obtain ⟨b, _, hne, hdec, hadd⟩ := addUser_fresh J hJ item file c r hr hw hitem hc hnew
        exact ⟨c ++ [r], by rw [hadd]; exact Or.inr ⟨hne, hdec⟩, uniqueIds_append c r hu hnew⟩
      · have hex : ∃ u ∈ c, u.Id = r.Id := by
          by_contra hcon
          exact hnew (fun u hmem hid => hcon ⟨u, hmem, hid⟩)
        have hne : c ≠ [] := by
          obtain ⟨u, hmem, _⟩ := hex
          exact List.ne_nil_of_mem hmem
        obtain ⟨hbuf, hdec⟩ := stores_nonempty J file.contents c hc hne
        exact ⟨c, by rw [addUser_present J item file c r hr hitem hbuf hdec hex]; exact hc, hu⟩

/-- Removing keeps the identifiers of the stored Collection pairwise distinct. -/
theorem removeUserById_keeps_unique (J : Json) (hJ : J.Lawful) (id : String) (file : File)
    (c : UserList) (hw : file.writeErr = none) (hc : Stores J file.contents c)
    (hu : UniqueIds c) :
    ∃ l, Stores J (removeUserById J id file).file.contents l ∧ UniqueIds l := by
  cases hr : file.readErr with
  | some err =>
    have : removeUserById J id file = ⟨.error err, file⟩ := by
      simp only [removeUserById, ReadAll, hr]
    exact ⟨c, by rw [this]; exact hc, hu⟩
  | none =>
    by_cases hno : ∀ u ∈ c, u.Id ≠ id
    · exact ⟨c, by rw [removeUserById_absent J id file c hr hc hno]; exact hc, hu⟩
    · have hex : ∃ u ∈ c, u.Id = id := by
        by_contra hcon
        exact hno (fun u hmem hid => hcon ⟨u, hmem, hid⟩)
      have hne : c ≠ [] := by
        obtain ⟨u, hmem, _⟩ := hex
        exact List.ne_nil_of_mem hmem
      obtain ⟨hbuf, hdec⟩ := stores_nonempty J file.contents c hc hne
      obtain ⟨i, u, hscan, hget, _⟩ := scan_some_of_exists id c hex
      have hi : i < c.length := by
        rcases Nat.lt_or_ge i c.length with hlt | hge
        · exact hlt
        · rw [List.getElem?_eq_none hge] at hget
          exact absurd hget (by simp)
      obtain ⟨b, _, hbne, hdec', hrem⟩ :=
        removeUserById_found J hJ id file c i hr hw hbuf hdec hscan
      exact ⟨removeUserById.delete c i, by rw [hrem]; exact Or.inr ⟨hbne, hdec'⟩,
        uniqueIds_delete c i hi hu⟩

theorem runOps_keeps_unique (J : Json) (hJ : J.Lawful) (ops : List Op) (file : File)
    (c : UserList) (hw : file.writeErr = none) (hc : Stores J file.contents c)
    (hu : UniqueIds c) :
    ∃ l, Stores J (runOps J file ops).contents l ∧ UniqueIds l := by
  induction ops generalizing file c with
  | nil => exact ⟨c, hc, hu⟩
  | cons op ops ih =>
    cases op with
    | add item =>
      obtain ⟨l, hl, hul⟩ := addUser_keeps_unique J hJ item file c hw hc hu
      exact ih _ l (addUser_writeErr J item file hw) hl hul
    | remove id =>
      obtain ⟨l, hl, hul⟩ := removeUserById_keeps_unique J hJ id file c hw hc hu
      exact ih _ l (removeUserById_writeErr J id file hw) hl hul

/-- C7: pairwise distinct identifiers are an invariant of the stored Collection under
the two writing handlers. On a writable resource whose Collection has pairwise distinct
identifiers, the Collection after a call of `addUser` or of `removeUserById` has
pairwise distinct identifiers, whether the call writes or not; hence the Collection
after any sequence of such calls on a resource that starts empty has them too. -/
theorem unique_ids_invariant (J : Json) (hJ : J.Lawful) :
    (∀ (file : File) (c : UserList) (op : Op), file.writeErr = none →
        Stores J file.contents c → UniqueIds c →
        ∃ l, Stores J (op.run J file).contents l ∧ UniqueIds l) ∧
      (∀ (file : File) (ops : List Op), file.contents = "" → file.writeErr = none →
        ∃ l, Stores J (runOps J file ops).contents l ∧ UniqueIds l) := by
  constructor
  · intro file c op hw hc hu
    cases op with
    | add item => exact addUser_keeps_unique J hJ item file c hw hc hu
    | remove id => exact removeUserById_keeps_unique J hJ id file c hw hc hu
  · intro file ops hempty hw
    exact runOps_keeps_unique J hJ ops file [] hw (Or.inl ⟨hempty, rfl⟩)
      (by simp [UniqueIds])

/-- C8, the failing input: on an empty resource the lookup does not return an empty
result; it returns the error of decoding an empty buffer. -/
theorem findUserById_empty_resource_fails :
    (findUserById goJson "1" (fileOf "")).out =
      .error (.json "unexpected end of JSON input") := by
  decide

/-- On a readable resource whose buffer decodes, the lookup gives an empty result when
no Record carries the identifier, and the encoding of the first Record that carries it
otherwise. -/
theorem findUserById_on_decodable (J : Json) (hJ : J.Lawful) (id : String) (file : File)
    (col : UserList) (hr : file.readErr = none)
    (hc : J.unmarshalList file.contents = .ok col) :
    ((∀ u ∈ col, u.Id ≠ id) → (findUserById J id file).out = .ok "") ∧
      (∀ (i : Nat) (u : User), col[i]? = some u → u.Id = id →
        (∀ j, j < i → ∀ v : User, col[j]? = some v → v.Id ≠ id) →
        ∃ b, (findUserById J id file).out = .ok b ∧ J.marshalUser u = .ok b) := by
  rw [findUserById_decoded J id file col hr hc]
  constructor
  · intro hno
    rw [(scan_eq_none_iff id col 0).2 hno]
  · intro i u hi hid hmin
    have hscan : scan id col 0 = some i :=
      (scan_eq_some_iff id col 0 i).2 ⟨i, by omega, ⟨u, hi, hid⟩, hmin⟩
    obtain ⟨b, hb, _⟩ := hJ.marshalUser_ok u
    have hget : col.getD i default = u := by
      simp [List.getD_eq_getElem?_getD, hi]
    rw [hscan]
    simp only [hget, hb]
    exact ⟨b, rfl, rfl⟩

/-! ### The theorems at concrete resources -/

/-- C1 at a concrete resource: `alice` is added to the file that holds `bob` and then
looked up. -/
theorem add_then_find_returns_record_witness :
    ∃ b, (findUserById goJson alice.Id (addUser goJson aliceItem bobFile).file).out = .ok b ∧
      goJson.marshalUser alice = .ok b ∧ goJson.unmarshalUser b = .ok alice :=
  add_then_find_returns_record goJson goJson_lawful aliceItem bobFile [bob] alice rfl rfl
    (by decide) (Or.inr ⟨by decide, by decide⟩) (by decide)

/-- C2 at a concrete resource, the scenario of the specification: the same add is
repeated on the file that holds `alice`. -/
theorem add_existing_reports_and_keeps_file_witness :
    (addUser goJson aliceItem aliceFile).out =
        .ok ("Item with id " ++ alice.Id ++ " already exists") ∧
      (addUser goJson aliceItem aliceFile).file = aliceFile :=
  add_existing_reports_and_keeps_file goJson aliceItem aliceFile [alice] alice rfl
    (by decide) (Or.inr ⟨by decide, by decide⟩) ⟨alice, List.mem_singleton.2 rfl, rfl⟩

/-- C3 (amended) at a concrete resource: `1` is removed from the file that holds
`alice`, `bob` and `carol` and then looked up. -/
theorem remove_then_find_empty_witness :
    (findUserById goJson "1" (removeUserById goJson "1" trioFile).file).out = .ok "" :=
  remove_then_find_empty goJson goJson_lawful "1" trioFile [alice, bob, carol] rfl rfl
    (Or.inr ⟨by decide, by decide⟩) (by decide)

/-- C4 at two concrete resources: `1` is removed from the file that holds `bob`, and
from the empty file. -/
theorem remove_absent_reports_and_keeps_file_witness :
    ((removeUserById goJson "1" bobFile).out = .ok ("Item with id " ++ "1" ++ " not found") ∧
        (removeUserById goJson "1" bobFile).file = bobFile) ∧
      ((removeUserById goJson "1" (fileOf "")).out =
          .ok ("Item with id " ++ "1" ++ " not found") ∧
        (removeUserById goJson "1" (fileOf "")).file = fileOf "") :=
  ⟨remove_absent_reports_and_keeps_file goJson "1" bobFile [bob] rfl
      (Or.inr ⟨by decide, by decide⟩) (by decide),
    remove_absent_reports_and_keeps_file goJson "1" (fileOf "") [] rfl
      (Or.inl ⟨rfl, rfl⟩) (by decide)⟩

/-- C7 at a concrete sequence of calls on an empty resource: an add, the same add
again, an add of a second Record, a removal, a removal of an absent identifier. -/
theorem unique_ids_invariant_witness :
    ∃ l, Stores goJson
        (runOps goJson (fileOf "")
          [.add aliceItem, .add aliceItem, .add bobItem, .remove "1",
            .remove "7"]).contents l ∧
      UniqueIds l :=
  (unique_ids_invariant goJson goJson_lawful).2 (fileOf "")
    [.add aliceItem, .add aliceItem, .add bobItem, .remove "1", .remove "7"]
    rfl rfl

/-- C9 at a concrete resource, the scenario of the specification: `alice` is added to
an empty file, which then is the array that holds `alice` alone. -/
theorem add_new_appends_witness :
    (∃ b l, (addUser goJson aliceItem (fileOf "")).out = .ok "" ∧
      (addUser goJson aliceItem (fileOf "")).file = { fileOf "" with contents := b } ∧
      goJson.marshalList l = .ok b ∧ Stores goJson b l ∧ goJson.unmarshalList b = .ok l ∧
      l = [] ++ [alice] ∧ l.length = ([] : UserList).length + 1 ∧
      (∀ j, j < ([] : UserList).length → l[j]? = ([] : UserList)[j]?) ∧
      l[([] : UserList).length]? = some alice ∧
      ((fileOf "").contents = "" → l = [alice])) ∧
      (addUser goJson aliceItem (fileOf "")).file = aliceFile :=
  ⟨add_new_appends goJson goJson_lawful aliceItem (fileOf "") [] alice rfl rfl (by decide)
    (Or.inl ⟨rfl, rfl⟩) (by decide), by decide⟩

/-- C10 at two concrete resources: `1` is removed from the file that holds `alice`,
`bob` and `carol`, which then holds `carol` and `bob`; and, the scenario of the
specification, from the file that holds `alice` alone, which then is the array `[]`. -/
theorem remove_swaps_last_into_place_witness :
    (∃ b l, (removeUserById goJson "1" trioFile).out = .ok "" ∧
      (removeUserById goJson "1" trioFile).file = { trioFile with contents := b } ∧
      goJson.marshalList l = .ok b ∧ goJson.unmarshalList b = .ok l ∧
      l.length = [alice, bob, carol].length - 1 ∧
      (∀ j, j < [alice, bob, carol].length - 1 →
        l[j]? = if j = 0 then [alice, bob, carol][[alice, bob, carol].length - 1]?
          else [alice, bob, carol][j]?) ∧
      l.Perm ([alice, bob, carol].eraseIdx 0) ∧
      l.countP (fun v => decide (v.Id = "1")) + 1 =
        [alice, bob, carol].countP (fun v => decide (v.Id = "1")) ∧
      ([alice, bob, carol].length = 1 → l = [])) ∧
      goJson.unmarshalList (removeUserById goJson "1" trioFile).file.contents =
        .ok [carol, bob] ∧
      (removeUserById goJson "1" aliceFile).file = fileOf "[]" :=
  ⟨remove_swaps_last_into_place goJson goJson_lawful "1" trioFile [alice, bob, carol] 0 alice
    rfl rfl (Or.inr ⟨by decide, by decide⟩) rfl rfl (by intro j hj; omega), by decide,
    by decide⟩

end UserStore
